import Mathlib

/-!
# Verification of `fix_completion_requests.py`

Shallow embedding of the single-file maintenance script
`src/super-ide/fix_completion_requests.py`.  The script reads a file,
applies one global regex substitution

  `(let ai_request = |let completion_request = |let request = )crate::ai::CompletionRequest \x7b([^\x7d]*)\x7d;`

with the callback `add_missing_fields`, and writes the result back.

Text is modelled as `List Char`.  The regex engine's behaviour on this
particular pattern is embedded directly:

* the alternation of the three fixed prefixes is tried in order
  (`tryPre`), as Python's `re` does;
* `[^\x7d]*` followed by `\x7d;` matches exactly the characters up to the
  first closing brace, which must be immediately followed by `;`
  (no backtracking can cross the excluded brace), embedded with
  `takeWhile`/`dropWhile`;
* `re.sub` scans left to right and replaces non-overlapping matches;
  on failure at a position it advances one character (`subScan`).
  The flags `re.MULTILINE | re.DOTALL` are irrelevant because the
  pattern contains no `^`, `$` or `.`.

File I/O (`open`/`read`/`write`, propagation of `IOError`, the
`__main__` loop over `sys.argv[1:]`) is modelled by a finite-map
filesystem and `Except`.
-/

namespace SuperIde

/-- Python `str.isspace` for the characters `str.rstrip()` strips
(ASCII whitespace, the ASCII separator controls, NEL, and the Unicode
space characters). -/
def pyIsSpace (c : Char) : Bool :=
  c == ' ' || c == '\t' || c == '\n' || c == '\x0b' || c == '\x0c' || c == '\r' ||
  c == '\x1c' || c == '\x1d' || c == '\x1e' || c == '\x1f' || c == '\x85' ||
  c == '\u00A0' || c == '\u1680' ||
  c == '\u2000' || c == '\u2001' || c == '\u2002' || c == '\u2003' ||
  c == '\u2004' || c == '\u2005' || c == '\u2006' || c == '\u2007' ||
  c == '\u2008' || c == '\u2009' || c == '\u200A' || c == '\u2028' ||
  c == '\u2029' || c == '\u202F' || c == '\u205F' || c == '\u3000'

/-- Python `str.rstrip()`: remove trailing whitespace. -/
def rstrip (s : List Char) : List Char :=
  (s.reverse.dropWhile pyIsSpace).reverse

/-- The first alternative of group 1 of the pattern. -/
def pfx1 : List Char := "let ai_request = ".data

/-- The second alternative of group 1 of the pattern. -/
def pfx2 : List Char := "let completion_request = ".data

/-- The third alternative of group 1 of the pattern. -/
def pfx3 : List Char := "let request = ".data

/-- Group 1's alternatives, in the order the regex engine tries them. -/
def pfxList : List (List Char) := [pfx1, pfx2, pfx3]

/-- The fixed text between group 1 and group 2 of the pattern:
`crate::ai::CompletionRequest \x7b`. -/
def headStr : List Char := "crate::ai::CompletionRequest \x7b".data

/-- The substring the callback tests with `'cursor_position:' in body`. -/
def cursorLabel : List Char := "cursor_position:".data

/-- The substring the callback tests with `'text_before_cursor:' in body`. -/
def textLabel : List Char := "text_before_cursor:".data

/-- Python's substring containment `n in h` (used by the callback's
`'cursor_position:' in body` tests): `n` occurs contiguously in `h`. -/
def containsSub (n : List Char) : List Char → Bool
  | [] => n.isEmpty
  | c :: cs => n.isPrefixOf (c :: cs) || containsSub n cs

/-- The twelve-space indentation the callback hard-codes. -/
def indent12 : List Char := "            ".data

/-- The string appended to `body.rstrip()` when both fields are missing. -/
def bothTail : List Char :=
  ",\n            cursor_position: None,\n            text_before_cursor: String::new(),".data

/-- The string appended to `body.rstrip()` when only `cursor_position` is missing. -/
def cursorTail : List Char := ",\n            cursor_position: None,".data

/-- The string appended to `body.rstrip()` when only `text_before_cursor` is missing. -/
def textTail : List Char := ",\n            text_before_cursor: String::new(),".data

/-- `match.group(0)`: the full matched span for a prefix `P` and body `B`. -/
def group0 (P B : List Char) : List Char := P ++ headStr ++ B ++ ['\x7d', ';']

/-- The f-string
`f'\x7bprefix\x7dcrate::ai::CompletionRequest \x7b\x7b\n\x7bnew_body\x7d\n            \x7d\x7d;'`
of the callback: the rewritten span for a prefix `P` and a new body `nb`. -/
def wrap (P nb : List Char) : List Char :=
  P ++ headStr ++ '\n' :: nb ++ '\n' :: (indent12 ++ ['\x7d', ';'])

/-- The substitution callback `add_missing_fields`, applied to the two
captured groups.  `'lbl:' in body` is Python substring containment,
i.e. `containsSub`. -/
def add_missing_fields (P B : List Char) : List Char :=
  if !(containsSub cursorLabel B) && !(containsSub textLabel B) then
    wrap P (rstrip B ++ bothTail)
  else if !(containsSub cursorLabel B) then
    wrap P (rstrip B ++ cursorTail)
  else if !(containsSub textLabel B) then
    wrap P (rstrip B ++ textTail)
  else
    group0 P B

/-- Strip a literal needle from the front of `s` (`none` when `s` does not
start with it). -/
def stripPre : List Char → List Char → Option (List Char)
  | [], s => some s
  | _ :: _, [] => none
  | p :: ps, c :: cs => if p = c then stripPre ps cs else none

/-- Try the alternatives of group 1 in order, as the regex engine does. -/
def tryPre : List (List Char) → List Char → Option (List Char × List Char)
  | [], _ => none
  | p :: ps, s =>
    match stripPre p s with
    | some r => some (p, r)
    | none => tryPre ps s

/-- The character class `[^\x7d]` of group 2. -/
def nbrace (c : Char) : Bool := c != '\x7d'

/-- Attempt to match the whole pattern at the start of `s`.  On success,
returns group 1 (the prefix), group 2 (the body: the characters before the
first closing brace, which `[^\x7d]*` cannot cross), and the text after the
match.  The first closing brace must be followed immediately by `;`. -/
def matchAt (s : List Char) : Option (List Char × List Char × List Char) :=
  match tryPre pfxList s with
  | none => none
  | some (P, s1) =>
    match stripPre headStr s1 with
    | none => none
    | some s2 =>
      match stripPre ['\x7d', ';'] (s2.dropWhile nbrace) with
      | some t => some (P, s2.takeWhile nbrace, t)
      | none => none

/-- One left-to-right pass of `re.sub` with callback `add_missing_fields`,
with explicit fuel (each step consumes at least one character, so fuel
`s.length` is always enough). -/
def subScanF : Nat → List Char → List Char
  | 0, _ => []
  | n + 1, s =>
    match matchAt s with
    | some (P, B, t) => add_missing_fields P B ++ subScanF n t
    | none =>
      match s with
      | [] => []
      | c :: cs => c :: subScanF n cs

/-- `re.sub(pattern, add_missing_fields, content, flags=re.MULTILINE | re.DOTALL)`:
scan left to right, replacing each non-overlapping match via the callback. -/
def subScan (s : List Char) : List Char := subScanF s.length s

/-- A file of the modelled filesystem. -/
structure FsFile where
  content : List Char
  readable : Bool
  writable : Bool

/-- The filesystem: a partial map from paths to files. -/
def FS : Type := String → Option FsFile

/-- `fix_completion_requests(file_path)`: read the file (raising if the path
is absent or unreadable), apply the substitution, and write the result back
in place (raising if the file is unwritable, in which case nothing has been
written).  A raised `IOError` is modelled as `Except.error` carrying the
path; the filesystem is returned unchanged except for the rewritten file. -/
def fix_completion_requests (fs : FS) (file_path : String) : Except String FS :=
  match fs file_path with
  | none => Except.error file_path
  | some f =>
    if f.readable = false then Except.error file_path
    else
      let fixed_content := subScan f.content
      if f.writable = false then Except.error file_path
      else Except.ok (fun q => if q = file_path then some { f with content := fixed_content } else fs q)

/-- The `__main__` loop: process the given paths in order; an uncaught
exception aborts the whole batch, leaving the filesystem as it was at the
moment of the failure. -/
def runMain (fs : FS) : List String → FS × Option String
  | [] => (fs, none)
  | p :: ps =>
    match fix_completion_requests fs p with
    | Except.error e => (fs, some e)
    | Except.ok fs2 => runMain fs2 ps

/-- Number of positions of `h` at which `n` occurs as a contiguous block. -/
def countOcc (n : List Char) : List Char → Nat
  | [] => 0
  | c :: cs => (if n.isPrefixOf (c :: cs) then 1 else 0) + countOcc n cs

/-- `n` occurs somewhere inside `h` (Python's `n in h`). -/
def occursIn (n h : List Char) : Prop := ∃ x y, h = x ++ n ++ y

/-- The pattern matches at no position of `s` (`re.sub` finds zero matches). -/
def noMatchAll (s : List Char) : Prop := ∀ i : Nat, matchAt (s.drop i) = none

/-! ## Concrete inputs used by the claims -/

/-- Scenario B's line: a `CompletionRequest` literal with `cursor_position`
present and `text_before_cursor` missing. -/
def c2input : List Char :=
  "let ai_request = crate::ai::CompletionRequest \x7b text: \"x\".into(), cursor_position: Some(3) \x7d;".data

/-- Scenario B's captured body. -/
def c2body : List Char := " text: \"x\".into(), cursor_position: Some(3) ".data

/-- The pattern as claim C6 words it: one of the three fixed prefix phrases
immediately preceding the literal name `CompletionRequest`, then an opening
brace (with the single separating space the spec's examples show), then a
body that is any text not containing a closing brace, then `\x7d;`.  This
definition follows the claim's words, for comparison with `matchAt`, which
follows the code. -/
def specPatternForm (s : List Char) : Prop :=
  ∃ P B t, P ∈ pfxList ∧ (∀ c ∈ B, c ≠ '\x7d') ∧
    s = P ++ "CompletionRequest \x7b".data ++ B ++ '\x7d' :: ';' :: t

/-- A span of the form claim C6 describes, with an unqualified
`CompletionRequest` name. -/
def c6span : List Char := "let request = CompletionRequest \x7btext: t\x7d;".data

/-! ## Basic list lemmas -/

theorem isPre_iff : ∀ n h : List Char, n.isPrefixOf h = true ↔ ∃ r, h = n ++ r
  | [], h => by simp [List.isPrefixOf]
  | a :: as, [] => by simp [List.isPrefixOf]
  | a :: as, b :: bs => by
    simp only [List.isPrefixOf, Bool.and_eq_true, beq_iff_eq, isPre_iff as bs,
      List.cons_append, List.cons.injEq]
    constructor
    · rintro ⟨rfl, r, rfl⟩
      exact ⟨r, rfl, rfl⟩
    · rintro ⟨r, rfl, rfl⟩
      exact ⟨rfl, r, rfl⟩

theorem containsSub_iff : ∀ n h : List Char, containsSub n h = true ↔ occursIn n h := by
  intro n h
  induction h with
  | nil =>
    simp only [containsSub, occursIn, List.isEmpty_iff]
    constructor
    · rintro rfl
      exact ⟨[], [], rfl⟩
    · rintro ⟨x, y, hxy⟩
      rcases List.append_eq_nil.mp hxy.symm with ⟨h1, h2⟩
      exact (List.append_eq_nil.mp h1).2
  | cons c cs ih =>
    simp only [containsSub, Bool.or_eq_true, isPre_iff, ih, occursIn]
    constructor
    · rintro (⟨r, hr⟩ | ⟨x, y, hxy⟩)
      · exact ⟨[], r, by simp [hr]⟩
      · exact ⟨c :: x, y, by simp [hxy]⟩
    · rintro ⟨x, y, hxy⟩
      cases x with
      | nil => exact Or.inl ⟨y, by simpa using hxy⟩
      | cons d ds =>
        right
        rw [List.cons_append, List.cons_append] at hxy
        exact ⟨ds, y, (List.cons.injEq _ _ _ _).mp hxy |>.2⟩

theorem stripPre_iff : ∀ p s r : List Char, stripPre p s = some r ↔ s = p ++ r
  | [], s, r => by simp [stripPre, eq_comm]
  | p :: ps, [], r => by simp [stripPre]
  | p :: ps, c :: cs, r => by
    by_cases h : p = c
    · subst h
      simp [stripPre, stripPre_iff ps cs r]
    · simp [stripPre, h, Ne.symm h]

theorem stripPre_self (p r : List Char) : stripPre p (p ++ r) = some r :=
  (stripPre_iff p (p ++ r) r).mpr rfl

theorem app_split_of_le (a b x y : List Char) (h : a ++ x = b ++ y)
    (hl : a.length ≤ b.length) : ∃ u, b = a ++ u ∧ x = u ++ y := by
  rcases List.append_eq_append_iff.mp h with ⟨u, hu1, hu2⟩ | ⟨u, hu1, hu2⟩
  · exact ⟨u, hu1, hu2⟩
  · have hu : u = [] := by
      have := congrArg List.length hu1
      simp at this
      exact List.eq_nil_of_length_eq_zero (by omega)
    subst hu
    rw [List.append_nil] at hu1
    exact ⟨[], by simp [hu1], by simp [hu2]⟩

theorem mem_tw {p : Char → Bool} : ∀ {l : List Char} {c : Char}, c ∈ l.takeWhile p → p c = true := by
  intro l
  induction l with
  | nil => intro c h; simp [List.takeWhile] at h
  | cons a as ih =>
    intro c h
    rw [List.takeWhile] at h
    cases hp : p a with
    | false => rw [hp] at h; simp at h
    | true =>
      rw [hp] at h
      rcases List.mem_cons.mp h with rfl | h2
      · exact hp
      · exact ih h2

theorem tw_app {p : Char → Bool} :
    ∀ (A l : List Char), (∀ c ∈ A, p c = true) → (A ++ l).takeWhile p = A ++ l.takeWhile p := by
  intro A
  induction A with
  | nil => intro l _; rfl
  | cons a as ih =>
    intro l hA
    have ha : p a = true := hA a (by simp)
    simp only [List.cons_append, List.takeWhile, ha, List.append_eq]
    rw [ih l (fun c hc => hA c (by simp [hc]))]

theorem dw_app {p : Char → Bool} :
    ∀ (A l : List Char), (∀ c ∈ A, p c = true) → (A ++ l).dropWhile p = l.dropWhile p := by
  intro A
  induction A with
  | nil => intro l _; rfl
  | cons a as ih =>
    intro l hA
    have ha : p a = true := hA a (by simp)
    simp only [List.cons_append, List.dropWhile, ha, List.append_eq]
    exact ih l (fun c hc => hA c (by simp [hc]))

theorem tw_stop {p : Char → Bool} (c : Char) (l : List Char) (hc : p c = false) :
    (c :: l).takeWhile p = [] := by
  simp [List.takeWhile, hc]

theorem dw_stop {p : Char → Bool} (c : Char) (l : List Char) (hc : p c = false) :
    (c :: l).dropWhile p = c :: l := by
  simp [List.dropWhile, hc]

theorem nbrace_iff (c : Char) : nbrace c = true ↔ c ≠ '\x7d' := by
  simp [nbrace]

theorem take_eq_of_app_eq (a b x y : List Char) (n : Nat) (h : a ++ x = b ++ y)
    (hna : n ≤ a.length) (hnb : n ≤ b.length) : a.take n = b.take n := by
  have h2 := congrArg (List.take n) h
  rwa [List.take_append_of_le_length hna, List.take_append_of_le_length hnb] at h2

/-! ## Characterization of the matcher -/

theorem tryPre_sound : ∀ (L : List (List Char)) (s P r : List Char),
    tryPre L s = some (P, r) → P ∈ L ∧ s = P ++ r := by
  intro L
  induction L with
  | nil => intro s P r h; simp [tryPre] at h
  | cons p ps ih =>
    intro s P r h
    rw [tryPre] at h
    cases hs : stripPre p s with
    | some r2 =>
      rw [hs] at h
      simp only [Option.some.injEq, Prod.mk.injEq] at h
      obtain ⟨rfl, rfl⟩ := h
      exact ⟨by simp, (stripPre_iff _ _ _).mp hs⟩
    | none =>
      rw [hs] at h
      obtain ⟨h1, h2⟩ := ih s P r h
      exact ⟨by simp [h1], h2⟩

theorem tryPre_complete (P rest : List Char) (hP : P ∈ pfxList) :
    tryPre pfxList (P ++ rest) = some (P, rest) := by
  have hmem : P = pfx1 ∨ P = pfx2 ∨ P = pfx3 := by simpa [pfxList] using hP
  rcases hmem with rfl | rfl | rfl
  · simp only [pfxList, tryPre, stripPre_self]
  · have h1 : stripPre pfx1 (pfx2 ++ rest) = none := by
      cases hs : stripPre pfx1 (pfx2 ++ rest) with
      | none => rfl
      | some r =>
        exfalso
        have h2 := (stripPre_iff _ _ _).mp hs
        have h3 := take_eq_of_app_eq pfx2 pfx1 rest r 5 h2 (by decide) (by decide)
        exact absurd h3 (by decide)
    simp only [pfxList, tryPre, h1, stripPre_self]
  · have h1 : stripPre pfx1 (pfx3 ++ rest) = none := by
      cases hs : stripPre pfx1 (pfx3 ++ rest) with
      | none => rfl
      | some r =>
        exfalso
        have h2 := (stripPre_iff _ _ _).mp hs
        have h3 := take_eq_of_app_eq pfx3 pfx1 rest r 5 h2 (by decide) (by decide)
        exact absurd h3 (by decide)
    have h2 : stripPre pfx2 (pfx3 ++ rest) = none := by
      cases hs : stripPre pfx2 (pfx3 ++ rest) with
      | none => rfl
      | some r =>
        exfalso
        have h3 := (stripPre_iff _ _ _).mp hs
        have h4 := take_eq_of_app_eq pfx3 pfx2 rest r 5 h3 (by decide) (by decide)
        exact absurd h4 (by decide)
    simp only [pfxList, tryPre, h1, h2, stripPre_self]

theorem matchAt_sound (s P B t : List Char) (h : matchAt s = some (P, B, t)) :
    P ∈ pfxList ∧ (∀ c ∈ B, c ≠ '\x7d') ∧ s = group0 P B ++ t := by
  rw [matchAt] at h
  cases h1 : tryPre pfxList s with
  | none => rw [h1] at h; simp at h
  | some Pr =>
    obtain ⟨P1, s1⟩ := Pr
    rw [h1] at h
    simp only at h
    cases h2 : stripPre headStr s1 with
    | none => rw [h2] at h; simp at h
    | some s2 =>
      rw [h2] at h
      simp only at h
      cases h3 : stripPre ['\x7d', ';'] (s2.dropWhile nbrace) with
      | none => rw [h3] at h; simp at h
      | some t2 =>
        rw [h3] at h
        simp only [Option.some.injEq, Prod.mk.injEq] at h
        obtain ⟨rfl, rfl, rfl⟩ := h
        obtain ⟨hmem, hs1⟩ := tryPre_sound _ _ _ _ h1
        have hs2 := (stripPre_iff _ _ _).mp h2
        have hdw := (stripPre_iff _ _ _).mp h3
        refine ⟨hmem, ?_, ?_⟩
        · intro c hc
          exact (nbrace_iff c).mp (mem_tw hc)
        · have hsplit : s2 = s2.takeWhile nbrace ++ (['\x7d', ';'] ++ t2) := by
            conv_lhs => rw [← List.takeWhile_append_dropWhile nbrace s2]
            rw [hdw]
          rw [hs1, hs2, group0]
          conv_lhs => rw [hsplit]
          simp [List.append_assoc]

theorem matchAt_complete (P B t : List Char) (hP : P ∈ pfxList) (hB : ∀ c ∈ B, c ≠ '\x7d') :
    matchAt (group0 P B ++ t) = some (P, B, t) := by
  have hB2 : ∀ c ∈ B, nbrace c = true := fun c hc => (nbrace_iff c).mpr (hB c hc)
  have harr : group0 P B ++ t = P ++ (headStr ++ (B ++ (['\x7d', ';'] ++ t))) := by
    simp [group0, List.append_assoc]
  have hdw : (B ++ (['\x7d', ';'] ++ t)).dropWhile nbrace = ['\x7d', ';'] ++ t := by
    rw [dw_app B _ hB2]
    simp [List.dropWhile, nbrace]
  have htw : (B ++ (['\x7d', ';'] ++ t)).takeWhile nbrace = B := by
    rw [tw_app B _ hB2]
    simp [List.takeWhile, nbrace]
  rw [matchAt, harr, tryPre_complete P _ hP]
  simp only [stripPre_self, hdw, htw]

theorem matchAt_nil : matchAt [] = none := by decide

theorem matchAt_len (s P B t : List Char) (h : matchAt s = some (P, B, t)) :
    t.length < s.length := by
  obtain ⟨-, -, h3⟩ := matchAt_sound s P B t h
  subst h3
  simp [group0, List.length_append]
  omega

/-! ## Equations of the scan -/

theorem subScanF_succ (n : Nat) (s : List Char) :
    subScanF (n + 1) s =
      match matchAt s with
      | some (P, B, t) => add_missing_fields P B ++ subScanF n t
      | none =>
        match s with
        | [] => []
        | c :: cs => c :: subScanF n cs := rfl

theorem subScanF_zero (s : List Char) : subScanF 0 s = [] := rfl

theorem subScanF_irrel : ∀ (n : Nat) (s : List Char) (m : Nat), s.length ≤ n → s.length ≤ m →
    subScanF n s = subScanF m s := by
  intro n
  induction n with
  | zero =>
    intro s m hn _
    have hs : s = [] := List.eq_nil_of_length_eq_zero (Nat.le_zero.mp hn)
    subst hs
    cases m with
    | zero => rfl
    | succ m =>
      rw [subScanF_succ, matchAt_nil]
      rfl
  | succ n ih =>
    intro s m hn hm
    cases m with
    | zero =>
      have hs : s = [] := List.eq_nil_of_length_eq_zero (Nat.le_zero.mp hm)
      subst hs
      rw [subScanF_succ, matchAt_nil]
      rfl
    | succ m =>
      rw [subScanF_succ, subScanF_succ]
      cases hma : matchAt s with
      | some x =>
        obtain ⟨P, B, t⟩ := x
        have hlen := matchAt_len s P B t hma
        show add_missing_fields P B ++ subScanF n t = add_missing_fields P B ++ subScanF m t
        rw [ih t m (by omega) (by omega)]
      | none =>
        cases s with
        | nil => rfl
        | cons c cs =>
          simp only [List.length_cons] at hn hm
          show c :: subScanF n cs = c :: subScanF m cs
          rw [ih cs m (by omega) (by omega)]

theorem subScan_none (c : Char) (cs : List Char) (h : matchAt (c :: cs) = none) :
    subScan (c :: cs) = c :: subScan cs := by
  rw [subScan, subScan]
  simp only [List.length_cons]
  rw [subScanF_succ, h]

theorem subScan_some (s P B t : List Char) (h : matchAt s = some (P, B, t)) :
    subScan s = add_missing_fields P B ++ subScan t := by
  have hlen := matchAt_len s P B t h
  cases s with
  | nil => rw [matchAt_nil] at h; exact absurd h (by simp)
  | cons c cs =>
    rw [subScan, subScan]
    simp only [List.length_cons]
    rw [subScanF_succ, h]
    simp only [List.length_cons] at hlen
    show add_missing_fields P B ++ subScanF cs.length t =
      add_missing_fields P B ++ subScanF t.length t
    rw [subScanF_irrel cs.length t t.length (by omega) (le_refl _)]

/-! ## `rstrip` and substring containment -/

theorem rstrip_split (B : List Char) :
    ∃ w, B = rstrip B ++ w ∧ ∀ c ∈ w, pyIsSpace c = true := by
  refine ⟨(B.reverse.takeWhile pyIsSpace).reverse, ?_, ?_⟩
  · rw [rstrip]
    conv_lhs => rw [← List.reverse_reverse B,
      ← List.takeWhile_append_dropWhile pyIsSpace B.reverse]
    rw [List.reverse_append]
  · intro c hc
    exact mem_tw (List.mem_reverse.mp hc)

theorem rstrip_mem (B : List Char) (c : Char) (hc : c ∈ rstrip B) : c ∈ B := by
  obtain ⟨w, hw, -⟩ := rstrip_split B
  rw [hw]
  exact List.mem_append.mpr (Or.inl hc)

theorem occursIn_lift (n m x y : List Char) (h : occursIn n m) : occursIn n (x ++ m ++ y) := by
  obtain ⟨a, b, rfl⟩ := h
  exact ⟨x ++ a, b ++ y, by simp [List.append_assoc]⟩

theorem containsSub_lift (n m x y : List Char) (h : containsSub n m = true) :
    containsSub n (x ++ m ++ y) = true :=
  (containsSub_iff n _).mpr (occursIn_lift n m x y ((containsSub_iff n m).mp h))

theorem containsSub_rstrip_false (n B : List Char) (h : containsSub n B = false) :
    containsSub n (rstrip B) = false := by
  cases hc : containsSub n (rstrip B) with
  | false => rfl
  | true =>
    exfalso
    obtain ⟨w, hw, -⟩ := rstrip_split B
    have h2 : containsSub n B = true := by
      rw [containsSub_iff] at hc ⊢
      obtain ⟨x, y, hxy⟩ := hc
      exact ⟨x, y ++ w, by rw [hw, hxy]; simp [List.append_assoc]⟩
    rw [h2] at h
    simp at h

theorem snoc_eq (a b : List Char) (x y : Char) (h : a ++ [x] = b ++ [y]) : a = b ∧ x = y := by
  have h2 := List.append_inj' h (by simp)
  exact ⟨h2.1, by simpa using h2.2⟩

theorem occursIn_drop_last (n M : List Char) (ch : Char) (hch : ch ∉ n) (hne : n ≠ [])
    (h : occursIn n (M ++ [ch])) : occursIn n M := by
  obtain ⟨x, y, hxy⟩ := h
  rcases List.eq_nil_or_concat y with rfl | ⟨y2, cy, rfl⟩
  · rw [List.append_nil] at hxy
    rcases List.eq_nil_or_concat n with rfl | ⟨n2, lc, rfl⟩
    · exact absurd rfl hne
    · simp only [List.concat_eq_append] at hxy hch
      rw [← List.append_assoc] at hxy
      obtain ⟨-, h4⟩ := snoc_eq M (x ++ n2) ch lc hxy
      exact absurd (by simp [h4]) hch
  · simp only [List.concat_eq_append] at hxy
    rw [← List.append_assoc] at hxy
    obtain ⟨h3, -⟩ := snoc_eq M (x ++ n ++ y2) ch cy hxy
    exact ⟨x, y2, by rw [h3]⟩

theorem occursIn_drop_ws (n : List Char) (hws : ∀ c ∈ n, pyIsSpace c = false) (hne : n ≠ []) :
    ∀ w : List Char, (∀ c ∈ w, pyIsSpace c = true) →
      ∀ A, occursIn n (A ++ w) → occursIn n A := by
  intro w
  induction w using List.reverseRecOn with
  | nil =>
    intro _ A h
    simpa using h
  | append_singleton ws cw ih =>
    intro hw A h
    rw [← List.append_assoc] at h
    have h3 : cw ∉ n := by
      intro hmem
      have h4 := hws cw hmem
      have h5 := hw cw (by simp)
      rw [h4] at h5
      simp at h5
    exact ih (fun c hc => hw c (by simp [hc])) A (occursIn_drop_last n (A ++ ws) cw h3 hne h)

theorem containsSub_rstrip_true (n B : List Char) (hws : ∀ c ∈ n, pyIsSpace c = false)
    (hne : n ≠ []) (h : containsSub n B = true) : containsSub n (rstrip B) = true := by
  obtain ⟨w, hw, hwsw⟩ := rstrip_split B
  rw [containsSub_iff] at h ⊢
  rw [hw] at h
  exact occursIn_drop_ws n hws hne w hwsw (rstrip B) h

/-! ## The callback's case equations and shape -/

theorem AMF_both (P B : List Char) (hc : containsSub cursorLabel B = false)
    (ht : containsSub textLabel B = false) :
    add_missing_fields P B = wrap P (rstrip B ++ bothTail) := by
  rw [add_missing_fields, hc, ht]
  rfl

theorem AMF_cursor (P B : List Char) (hc : containsSub cursorLabel B = false)
    (ht : containsSub textLabel B = true) :
    add_missing_fields P B = wrap P (rstrip B ++ cursorTail) := by
  rw [add_missing_fields, hc, ht]
  rfl

theorem AMF_text (P B : List Char) (hc : containsSub cursorLabel B = true)
    (ht : containsSub textLabel B = false) :
    add_missing_fields P B = wrap P (rstrip B ++ textTail) := by
  rw [add_missing_fields, hc, ht]
  rfl

theorem AMF_keep (P B : List Char) (hc : containsSub cursorLabel B = true)
    (ht : containsSub textLabel B = true) :
    add_missing_fields P B = group0 P B := by
  rw [add_missing_fields, hc, ht]
  rfl

theorem wrap_eq_group0 (P nb : List Char) :
    wrap P nb = group0 P ('\n' :: nb ++ '\n' :: indent12) := by
  simp [wrap, group0, List.append_assoc]

theorem AMF_shape (P B : List Char) (hB : ∀ c ∈ B, c ≠ '\x7d') :
    ∃ B2, add_missing_fields P B = group0 P B2 ∧ (∀ c ∈ B2, c ≠ '\x7d') ∧
      containsSub cursorLabel B2 = true ∧ containsSub textLabel B2 = true := by
  have hind : ∀ x ∈ indent12, x ≠ '\x7d' := by decide
  have hmem : ∀ tail : List Char, (∀ c ∈ tail, c ≠ '\x7d') →
      ∀ c ∈ '\n' :: (rstrip B ++ tail) ++ '\n' :: indent12, c ≠ '\x7d' := by
    intro tail htail c hcmem
    rcases List.mem_cons.mp hcmem with rfl | h1
    · decide
    rcases List.mem_append.mp h1 with h2 | h2
    · rcases List.mem_append.mp h2 with h3 | h3
      · exact hB c (rstrip_mem B c h3)
      · exact htail c h3
    · rcases List.mem_cons.mp h2 with rfl | h3
      · decide
      · exact hind c h3
  cases hc : containsSub cursorLabel B with
  | false =>
    cases ht : containsSub textLabel B with
    | false =>
      refine ⟨'\n' :: (rstrip B ++ bothTail) ++ '\n' :: indent12,
        by rw [AMF_both P B hc ht, wrap_eq_group0], hmem bothTail (by decide), ?_, ?_⟩
      · have harr : '\n' :: (rstrip B ++ bothTail) ++ '\n' :: indent12 =
            ('\n' :: rstrip B) ++ bothTail ++ ('\n' :: indent12) := by
          simp [List.append_assoc]
        rw [harr]
        exact containsSub_lift _ _ _ _ (by decide)
      · have harr : '\n' :: (rstrip B ++ bothTail) ++ '\n' :: indent12 =
            ('\n' :: rstrip B) ++ bothTail ++ ('\n' :: indent12) := by
          simp [List.append_assoc]
        rw [harr]
        exact containsSub_lift _ _ _ _ (by decide)
    | true =>
      refine ⟨'\n' :: (rstrip B ++ cursorTail) ++ '\n' :: indent12,
        by rw [AMF_cursor P B hc ht, wrap_eq_group0], hmem cursorTail (by decide), ?_, ?_⟩
      · have harr : '\n' :: (rstrip B ++ cursorTail) ++ '\n' :: indent12 =
            ('\n' :: rstrip B) ++ cursorTail ++ ('\n' :: indent12) := by
          simp [List.append_assoc]
        rw [harr]
        exact containsSub_lift _ _ _ _ (by decide)
      · have h2 : containsSub textLabel (rstrip B) = true :=
          containsSub_rstrip_true textLabel B (by decide) (by decide) ht
        have harr : '\n' :: (rstrip B ++ cursorTail) ++ '\n' :: indent12 =
            ['\n'] ++ rstrip B ++ (cursorTail ++ '\n' :: indent12) := by
          simp [List.append_assoc]
        rw [harr]
        exact containsSub_lift _ _ _ _ h2
  | true =>
    cases ht : containsSub textLabel B with
    | false =>
      refine ⟨'\n' :: (rstrip B ++ textTail) ++ '\n' :: indent12,
        by rw [AMF_text P B hc ht, wrap_eq_group0], hmem textTail (by decide), ?_, ?_⟩
      · have h2 : containsSub cursorLabel (rstrip B) = true :=
          containsSub_rstrip_true cursorLabel B (by decide) (by decide) hc
        have harr : '\n' :: (rstrip B ++ textTail) ++ '\n' :: indent12 =
            ['\n'] ++ rstrip B ++ (textTail ++ '\n' :: indent12) := by
          simp [List.append_assoc]
        rw [harr]
        exact containsSub_lift _ _ _ _ h2
      · have harr : '\n' :: (rstrip B ++ textTail) ++ '\n' :: indent12 =
            ('\n' :: rstrip B) ++ textTail ++ ('\n' :: indent12) := by
          simp [List.append_assoc]
        rw [harr]
        exact containsSub_lift _ _ _ _ (by decide)
    | true =>
      exact ⟨B, AMF_keep P B hc ht, hB, hc, ht⟩

/-! ## Idempotence machinery -/

theorem pfx_cases (P : List Char) (hP : P ∈ pfxList) : P = pfx1 ∨ P = pfx2 ∨ P = pfx3 := by
  simpa [pfxList] using hP

theorem pfx_brace_free (P : List Char) (hP : P ∈ pfxList) : ∀ x ∈ P, x ≠ '\x7d' := by
  rcases pfx_cases P hP with rfl | rfl | rfl
  · decide
  · decide
  · decide

theorem pfx_len_le (P : List Char) (hP : P ∈ pfxList) : P.length ≤ 25 := by
  rcases pfx_cases P hP with rfl | rfl | rfl
  · decide
  · decide
  · decide

theorem pfx_head (P : List Char) (hP : P ∈ pfxList) : ∃ P2, P = 'l' :: P2 := by
  rcases pfx_cases P hP with rfl | rfl | rfl
  · exact ⟨"et ai_request = ".data, by decide⟩
  · exact ⟨"et completion_request = ".data, by decide⟩
  · exact ⟨"et request = ".data, by decide⟩

theorem headStr_brace_free : ∀ x ∈ headStr, x ≠ '\x7d' := by decide

theorem headStr_noBorder : ∀ k, k < 30 → 0 < k → (headStr.drop k).isPrefixOf headStr = false := by
  decide

theorem pfx_sfx_not_headStr :
    ∀ P, P ∈ pfxList → ∀ k, k < P.length → (P.drop k).isPrefixOf headStr = false := by
  intro P hP
  rcases pfx_cases P hP with rfl | rfl | rfl
  · decide
  · decide
  · decide

/-- First-match decomposition of one pass of the scan. -/
theorem subScan_decomp_fuel : ∀ (n : Nat) (cs : List Char), cs.length ≤ n →
    subScan cs = cs ∨
    ∃ v Pm Bm r, cs = v ++ group0 Pm Bm ++ r ∧
      subScan cs = v ++ add_missing_fields Pm Bm ++ subScan r ∧
      Pm ∈ pfxList ∧ (∀ c ∈ Bm, c ≠ '\x7d') := by
  intro n
  induction n with
  | zero =>
    intro cs h
    have hs : cs = [] := List.eq_nil_of_length_eq_zero (Nat.le_zero.mp h)
    subst hs
    left
    rfl
  | succ n ih =>
    intro cs hlen
    cases hma : matchAt cs with
    | some x =>
      obtain ⟨P, B, t⟩ := x
      right
      obtain ⟨hPm, hBf, hdec⟩ := matchAt_sound cs P B t hma
      refine ⟨[], P, B, t, by simpa using hdec, ?_, hPm, hBf⟩
      rw [subScan_some cs P B t hma]
      simp
    | none =>
      cases cs with
      | nil => left; rfl
      | cons c cs2 =>
        have h2 := subScan_none c cs2 hma
        simp only [List.length_cons] at hlen
        rcases ih cs2 (by omega) with heq | ⟨v, Pm, Bm, r, e1, e2, e3, e4⟩
        · left
          rw [h2, heq]
        · right
          refine ⟨c :: v, Pm, Bm, r, by simp [e1], ?_, e3, e4⟩
          rw [h2, e2]
          simp

theorem subScan_decomp (cs : List Char) :
    subScan cs = cs ∨
    ∃ v Pm Bm r, cs = v ++ group0 Pm Bm ++ r ∧
      subScan cs = v ++ add_missing_fields Pm Bm ++ subScan r ∧
      Pm ∈ pfxList ∧ (∀ c ∈ Bm, c ≠ '\x7d') :=
  subScan_decomp_fuel cs.length cs (le_refl _)

theorem break_at_brace : ∀ l : List Char, '\x7d' ∈ l →
    ∃ v2, l = l.takeWhile nbrace ++ '\x7d' :: v2 := by
  intro l
  induction l with
  | nil => intro hmem; simp at hmem
  | cons a as ih =>
    intro hmem
    by_cases ha : a = '\x7d'
    · subst ha
      refine ⟨as, ?_⟩
      rw [tw_stop _ _ (by simp [nbrace])]
      rfl
    · have ha2 : nbrace a = true := by simp [nbrace, ha]
      have hmem2 : '\x7d' ∈ as := by
        rcases List.mem_cons.mp hmem with h3 | h3
        · exact absurd h3.symm ha
        · exact h3
      obtain ⟨v2, hv2⟩ := ih hmem2
      refine ⟨v2, ?_⟩
      rw [List.takeWhile_cons_of_pos ha2]
      rw [List.cons_append]
      exact congrArg (a :: ·) hv2

theorem brace_decomp_unique (A1 A2 T1 T2 : List Char)
    (h1 : ∀ x ∈ A1, x ≠ '\x7d') (h2 : ∀ x ∈ A2, x ≠ '\x7d')
    (heq : A1 ++ '\x7d' :: ';' :: T1 = A2 ++ '\x7d' :: ';' :: T2) : A1 = A2 ∧ T1 = T2 := by
  have hn1 : ∀ x ∈ A1, nbrace x = true := fun x hx => (nbrace_iff x).mpr (h1 x hx)
  have hn2 : ∀ x ∈ A2, nbrace x = true := fun x hx => (nbrace_iff x).mpr (h2 x hx)
  have k1 := congrArg (List.takeWhile nbrace) heq
  have k2 := congrArg (List.dropWhile nbrace) heq
  rw [tw_app A1 _ hn1, tw_app A2 _ hn2, tw_stop _ _ (by simp [nbrace]),
    tw_stop _ _ (by simp [nbrace])] at k1
  rw [dw_app A1 _ hn1, dw_app A2 _ hn2, dw_stop _ _ (by simp [nbrace]),
    dw_stop _ _ (by simp [nbrace])] at k2
  refine ⟨by simpa using k1, ?_⟩
  simpa using k2

/-- A position at which the pattern fails to match cannot become a match
position after the remainder of the text has been rewritten by one pass. -/
theorem matchAt_sub_none (c : Char) (cs : List Char) (h : matchAt (c :: cs) = none) :
    matchAt (c :: subScan cs) = none := by
  cases hm2 : matchAt (c :: subScan cs) with
  | none => rfl
  | some x =>
    exfalso
    obtain ⟨P, B, t⟩ := x
    obtain ⟨hP, hBf, hdec⟩ := matchAt_sound _ P B t hm2
    have hPf := pfx_brace_free P hP
    rcases subScan_decomp cs with heq | ⟨v, Pm, Bm, r, e1, e2, ePm, eBm⟩
    · rw [heq] at hdec
      rw [hdec, matchAt_complete P B t hP hBf] at h
      simp at h
    · obtain ⟨Bm2, hA, hBm2f, hcl, htl⟩ := AMF_shape Pm Bm eBm
      have hPmf := pfx_brace_free Pm ePm
      have hdec2 : (c :: v) ++ (Pm ++ (headStr ++ (Bm2 ++ ('\x7d' :: ';' :: subScan r)))) =
          (P ++ (headStr ++ B)) ++ ('\x7d' :: ';' :: t) := by
        rw [e2, hA] at hdec
        simpa [group0, List.append_assoc] using hdec
      by_cases hbr : '\x7d' ∈ c :: v
      · -- the first closing brace of the rewritten text lies inside `c :: v`,
        -- which pass one left unchanged, so pass one already matched here
        obtain ⟨v2, hv2⟩ := break_at_brace (c :: v) hbr
        have hv1f : ∀ x ∈ (c :: v).takeWhile nbrace, nbrace x = true := fun x hx => mem_tw hx
        have hsplit : (c :: v).takeWhile nbrace ++
            ('\x7d' :: (v2 ++ (Pm ++ (headStr ++ (Bm2 ++ ('\x7d' :: ';' :: subScan r)))))) =
            (P ++ (headStr ++ B)) ++ ('\x7d' :: ';' :: t) := by
          rw [← hdec2]
          conv_rhs => rw [hv2]
          simp [List.append_assoc]
        have hRf : ∀ x ∈ P ++ (headStr ++ B), nbrace x = true := by
          intro x hx
          rcases List.mem_append.mp hx with h3 | h3
          · exact (nbrace_iff x).mpr (hPf x h3)
          rcases List.mem_append.mp h3 with h4 | h4
          · exact (nbrace_iff x).mpr (headStr_brace_free x h4)
          · exact (nbrace_iff x).mpr (hBf x h4)
        have k1 := congrArg (List.takeWhile nbrace) hsplit
        have k2 := congrArg (List.dropWhile nbrace) hsplit
        rw [tw_app _ _ hv1f, tw_stop '\x7d' _ (by simp [nbrace]), tw_app _ _ hRf,
          tw_stop '\x7d' _ (by simp [nbrace]), List.append_nil, List.append_nil] at k1
        rw [dw_app _ _ hv1f, dw_stop '\x7d' _ (by simp [nbrace]), dw_app _ _ hRf,
          dw_stop '\x7d' _ (by simp [nbrace])] at k2
        have k3 : v2 ++ (Pm ++ (headStr ++ (Bm2 ++ ('\x7d' :: ';' :: subScan r)))) = ';' :: t := by
          have := (List.cons.injEq _ _ _ _).mp k2
          exact this.2
        cases v2 with
        | nil =>
          obtain ⟨Pm2, hPm2⟩ := pfx_head Pm ePm
          rw [List.nil_append, hPm2, List.cons_append] at k3
          have := ((List.cons.injEq _ _ _ _).mp k3).1
          exact absurd this (by decide)
        | cons a v2' =>
          rw [List.cons_append] at k3
          obtain ⟨ha, hrest⟩ := (List.cons.injEq _ _ _ _).mp k3
          subst ha
          have hcv : c :: v = (P ++ (headStr ++ B)) ++ '\x7d' :: ';' :: v2' := by
            rw [hv2, k1]
          have hc1 : c :: cs = group0 P B ++ (v2' ++ (group0 Pm Bm ++ r)) := by
            rw [e1]
            have hstep : c :: (v ++ group0 Pm Bm ++ r) = (c :: v) ++ (group0 Pm Bm ++ r) := by
              simp
            rw [hstep, hcv]
            simp [group0, List.append_assoc]
          rw [hc1, matchAt_complete P B _ hP hBf] at h
          simp at h
      · -- no closing brace in `c :: v`: align the two decompositions
        have hcvf : ∀ x ∈ c :: v, x ≠ '\x7d' := by
          intro x hx h3
          exact hbr (h3 ▸ hx)
        have hA1f : ∀ x ∈ (c :: v) ++ (Pm ++ (headStr ++ Bm2)), x ≠ '\x7d' := by
          intro x hx
          rcases List.mem_append.mp hx with h3 | h3
          · exact hcvf x h3
          rcases List.mem_append.mp h3 with h4 | h4
          · exact hPmf x h4
          rcases List.mem_append.mp h4 with h5 | h5
          · exact headStr_brace_free x h5
          · exact hBm2f x h5
        have hA2f : ∀ x ∈ P ++ (headStr ++ B), x ≠ '\x7d' := by
          intro x hx
          rcases List.mem_append.mp hx with h3 | h3
          · exact hPf x h3
          rcases List.mem_append.mp h3 with h4 | h4
          · exact headStr_brace_free x h4
          · exact hBf x h4
        have hdec3 : ((c :: v) ++ (Pm ++ (headStr ++ Bm2))) ++ '\x7d' :: ';' :: subScan r =
            (P ++ (headStr ++ B)) ++ '\x7d' :: ';' :: t := by
          rw [← hdec2]
          simp [List.append_assoc]
        obtain ⟨E1, E2⟩ :=
          brace_decomp_unique _ _ (subScan r) t hA1f hA2f hdec3
        have E1' : ((c :: v) ++ Pm) ++ (headStr ++ Bm2) = P ++ (headStr ++ B) := by
          rw [← E1]
          simp [List.append_assoc]
        have hsplit0 : c :: cs = ((c :: v) ++ Pm) ++ (headStr ++ (Bm ++ ('\x7d' :: ';' :: r))) := by
          rw [e1]
          simp [group0, List.append_assoc]
        rcases le_or_lt P.length ((c :: v) ++ Pm).length with hle | hgt
        · obtain ⟨u, hQu, hI⟩ :=
            app_split_of_le P ((c :: v) ++ Pm) (headStr ++ B) (headStr ++ Bm2) E1'.symm hle
          rcases List.eq_nil_or_concat u with rfl | hune
          · -- the prefixes line up exactly: pass one would have matched
            rw [List.append_nil] at hQu
            have hc1 : c :: cs = group0 P Bm ++ r := by
              rw [hsplit0, hQu]
              simp [group0, List.append_assoc]
            rw [hc1, matchAt_complete P Bm r hP eBm] at h
            simp at h
          · have hu : u ≠ [] := by
              rcases hune with ⟨u2, cu, rfl⟩
              simp
            rcases le_or_lt u.length 30 with hule | hug
            · obtain ⟨w, hw1, hw2⟩ :=
                app_split_of_le u headStr (headStr ++ Bm2) B hI.symm (by
                  have : headStr.length = 30 := by decide
                  omega)
              rcases List.eq_nil_or_concat w with rfl | hwne
              · -- u = headStr: pass one would have matched with body headStr ++ Bm
                rw [List.append_nil] at hw1
                have hfree : ∀ x ∈ headStr ++ Bm, x ≠ '\x7d' := by
                  intro x hx
                  rcases List.mem_append.mp hx with h3 | h3
                  · exact headStr_brace_free x h3
                  · exact eBm x h3
                have hc1 : c :: cs = group0 P (headStr ++ Bm) ++ r := by
                  rw [hsplit0, hQu, ← hw1]
                  simp [group0, List.append_assoc]
                rw [hc1, matchAt_complete P (headStr ++ Bm) r hP hfree] at h
                simp at h
              · -- a nonempty proper border of headStr: impossible
                have hw : w ≠ [] := by
                  rcases hwne with ⟨w2, cw, rfl⟩
                  simp
                have hlen30 : headStr.length = 30 := by decide
                have hlenu : u.length + w.length = 30 := by
                  have := congrArg List.length hw1
                  simp [List.length_append] at this
                  omega
                have hupos : 0 < u.length := List.length_pos.mpr hu
                have hwpos : 0 < w.length := List.length_pos.mpr hw
                have hdrop : headStr.drop u.length = w := by
                  rw [hw1]
                  exact List.drop_left u w
                obtain ⟨z, hz1, -⟩ :=
                  app_split_of_le w headStr B Bm2 hw2.symm (by omega)
                have hpre : (headStr.drop u.length).isPrefixOf headStr = true := by
                  rw [hdrop]
                  exact (isPre_iff w headStr).mpr ⟨z, hz1⟩
                rw [headStr_noBorder u.length (by omega) hupos] at hpre
                simp at hpre
            · -- u extends past the whole of headStr
              obtain ⟨w, hw1, hw2⟩ :=
                app_split_of_le headStr u B (headStr ++ Bm2) hI (by
                  have : headStr.length = 30 := by decide
                  omega)
              have hfree : ∀ x ∈ w ++ (headStr ++ Bm), x ≠ '\x7d' := by
                intro x hx
                rcases List.mem_append.mp hx with h3 | h3
                · exact hBf x (by rw [hw2]; exact List.mem_append.mpr (Or.inl h3))
                rcases List.mem_append.mp h3 with h4 | h4
                · exact headStr_brace_free x h4
                · exact eBm x h4
              have hc1 : c :: cs = group0 P (w ++ (headStr ++ Bm)) ++ r := by
                rw [hsplit0, hQu, hw1]
                simp [group0, List.append_assoc]
              rw [hc1, matchAt_complete P (w ++ (headStr ++ Bm)) r hP hfree] at h
              simp at h
        · -- P extends past the prefix found in pass one: a nonempty suffix of P
          -- would have to begin headStr, impossible
          obtain ⟨w, hw1, hw2⟩ :=
            app_split_of_le ((c :: v) ++ Pm) P (headStr ++ Bm2) (headStr ++ B) E1'
              (Nat.le_of_lt hgt)
          have hw : w ≠ [] := by
            intro hwnil
            rw [hwnil, List.append_nil] at hw1
            rw [hw1] at hgt
            omega
          have hwlen : w.length ≤ P.length := by
            have := congrArg List.length hw1
            simp [List.length_append] at this
            omega
          have hP25 := pfx_len_le P hP
          obtain ⟨z, hz1, -⟩ :=
            app_split_of_le w headStr (headStr ++ B) Bm2 hw2.symm (by
              have : headStr.length = 30 := by decide
              omega)
          have hdrop : P.drop ((c :: v) ++ Pm).length = w := by
            rw [hw1]
            exact List.drop_left _ w
          have hpre : (P.drop ((c :: v) ++ Pm).length).isPrefixOf headStr = true := by
            rw [hdrop]
            exact (isPre_iff w headStr).mpr ⟨z, hz1⟩
          have hqlen : ((c :: v) ++ Pm).length < P.length := hgt
          rw [pfx_sfx_not_headStr P hP _ hqlen] at hpre
          simp at hpre

theorem subScan_idem_fuel : ∀ (n : Nat) (s : List Char), s.length ≤ n →
    subScan (subScan s) = subScan s := by
  intro n
  induction n with
  | zero =>
    intro s h
    have hs : s = [] := List.eq_nil_of_length_eq_zero (Nat.le_zero.mp h)
    subst hs
    rfl
  | succ n ih =>
    intro s hlen
    cases hma : matchAt s with
    | some x =>
      obtain ⟨P, B, t⟩ := x
      obtain ⟨hP, hBf, -⟩ := matchAt_sound s P B t hma
      obtain ⟨B2, hA, hB2f, hcl, htl⟩ := AMF_shape P B hBf
      have hlent := matchAt_len s P B t hma
      rw [subScan_some s P B t hma, hA]
      rw [subScan_some (group0 P B2 ++ subScan t) P B2 (subScan t)
        (matchAt_complete P B2 (subScan t) hP hB2f)]
      rw [AMF_keep P B2 hcl htl]
      rw [ih t (by omega)]
    | none =>
      cases s with
      | nil => rfl
      | cons c cs =>
        rw [subScan_none c cs hma]
        rw [subScan_none c (subScan cs) (matchAt_sub_none c cs hma)]
        simp only [List.length_cons] at hlen
        rw [ih cs (by omega)]

theorem subScan_idem (s : List Char) : subScan (subScan s) = subScan s :=
  subScan_idem_fuel s.length s (le_refl _)

/-! ## Occurrence counting -/

theorem countOcc_cons (n : List Char) (c : Char) (cs : List Char) :
    countOcc n (c :: cs) = (if n.isPrefixOf (c :: cs) then 1 else 0) + countOcc n cs := rfl

theorem containsSub_cons (n : List Char) (c : Char) (cs : List Char) :
    containsSub n (c :: cs) = (n.isPrefixOf (c :: cs) || containsSub n cs) := rfl

/-- Counting occurrences across an append: when the needle occurs nowhere in
`A` and no nonempty proper suffix of the needle begins `Bt`, every occurrence
lies inside `Bt`. -/
theorem countOcc_app (n : List Char) (Bt : List Char)
    (hstr : ∀ j, j < n.length → 0 < j → (n.drop j).isPrefixOf Bt = false) :
    ∀ A : List Char, containsSub n A = false → countOcc n (A ++ Bt) = countOcc n Bt := by
  intro A
  induction A with
  | nil => intro _; rfl
  | cons a A2 ih =>
    intro hnA
    have hsub : containsSub n A2 = false := by
      cases h2 : containsSub n A2 with
      | false => rfl
      | true =>
        rw [containsSub_cons, h2, Bool.or_true] at hnA
        exact absurd hnA (by simp)
    have hpre : n.isPrefixOf (a :: (A2 ++ Bt)) = false := by
      cases hp : n.isPrefixOf (a :: (A2 ++ Bt)) with
      | false => rfl
      | true =>
        exfalso
        obtain ⟨d, hd⟩ := (isPre_iff n _).mp hp
        rcases le_or_lt n.length (a :: A2).length with hle | hgt
        · have h3 : (a :: A2).take n.length = n := by
            have h4 := congrArg (List.take n.length) hd
            rw [List.take_left] at h4
            have h6 : a :: (A2 ++ Bt) = (a :: A2) ++ Bt := by simp
            rw [h6, List.take_append_of_le_length hle] at h4
            exact h4
          have h5 : n.isPrefixOf (a :: A2) = true := by
            rw [← h3]
            exact (isPre_iff _ _).mpr ⟨(a :: A2).drop n.length, (List.take_append_drop _ _).symm⟩
          rw [containsSub_cons, h5, Bool.true_or] at hnA
          exact absurd hnA (by simp)
        · have h3 : Bt = n.drop (a :: A2).length ++ d := by
            have h4 := congrArg (List.drop (a :: A2).length) hd
            rw [← List.cons_append, List.drop_left] at h4
            rw [h4, List.drop_append_of_le_length (Nat.le_of_lt hgt)]
          have h5 : (n.drop (a :: A2).length).isPrefixOf Bt = true :=
            (isPre_iff _ _).mpr ⟨d, h3⟩
          rw [hstr (a :: A2).length hgt (by simp)] at h5
          exact absurd h5 (by simp)
    rw [List.cons_append, countOcc_cons, hpre]
    simp only [Bool.false_eq_true, if_false, Nat.zero_add]
    exact ih hsub

/-! ## Zero-match identity -/

theorem noMatchAll_of_lt (s : List Char)
    (h : ∀ i, i < s.length → matchAt (s.drop i) = none) : noMatchAll s := by
  intro i
  rcases lt_or_ge i s.length with h2 | h2
  · exact h i h2
  · rw [List.drop_eq_nil_of_le h2]
    exact matchAt_nil

theorem noMatch_id (s : List Char) (h : noMatchAll s) : subScan s = s := by
  induction s with
  | nil => rfl
  | cons c cs ih =>
    have h0 : matchAt (c :: cs) = none := by simpa using h 0
    rw [subScan_none c cs h0]
    rw [ih]
    intro i
    simpa using h (i + 1)

/-! ## Piece decomposition of a full pass -/

theorem pieces_fuel : ∀ (n : Nat) (s : List Char), s.length ≤ n →
    ∃ ps : List (List Char × List Char),
      s = (ps.map Prod.fst).flatten ∧ subScan s = (ps.map Prod.snd).flatten ∧
      ∀ pr ∈ ps, pr.2 = pr.1 ∨ ∃ P B, P ∈ pfxList ∧ (∀ c ∈ B, c ≠ '\x7d') ∧
        pr.1 = group0 P B ∧ pr.2 = add_missing_fields P B := by
  intro n
  induction n with
  | zero =>
    intro s h
    have hs : s = [] := List.eq_nil_of_length_eq_zero (Nat.le_zero.mp h)
    subst hs
    exact ⟨[], by simp, by simp [subScan, subScanF_zero], by simp⟩
  | succ n ih =>
    intro s hlen
    cases hma : matchAt s with
    | some x =>
      obtain ⟨P, B, t⟩ := x
      obtain ⟨hP, hBf, hdec⟩ := matchAt_sound s P B t hma
      have hlent := matchAt_len s P B t hma
      obtain ⟨ps, hp1, hp2, hp3⟩ := ih t (by omega)
      refine ⟨(group0 P B, add_missing_fields P B) :: ps, ?_, ?_, ?_⟩
      · simp only [List.map_cons, List.flatten_cons]
        rw [← hp1, hdec]
      · simp only [List.map_cons, List.flatten_cons]
        rw [← hp2, subScan_some s P B t hma]
      · intro pr hpr
        rcases List.mem_cons.mp hpr with rfl | hpr2
        · exact Or.inr ⟨P, B, hP, hBf, rfl, rfl⟩
        · exact hp3 pr hpr2
    | none =>
      cases s with
      | nil => exact ⟨[], by simp, by simp [subScan, subScanF_zero], by simp⟩
      | cons c cs =>
        simp only [List.length_cons] at hlen
        obtain ⟨ps, hp1, hp2, hp3⟩ := ih cs (by omega)
        refine ⟨([c], [c]) :: ps, ?_, ?_, ?_⟩
        · simp only [List.map_cons, List.flatten_cons]
          rw [← hp1]
          rfl
        · simp only [List.map_cons, List.flatten_cons]
          rw [← hp2, subScan_none c cs hma]
          rfl
        · intro pr hpr
          rcases List.mem_cons.mp hpr with rfl | hpr2
          · exact Or.inl rfl
          · exact hp3 pr hpr2

/-! ## Equations of the filesystem model -/

theorem fix_ok (fs : FS) (p : String) (f : FsFile) (hf : fs p = some f)
    (hr : f.readable = true) (hw : f.writable = true) :
    fix_completion_requests fs p =
      Except.ok (fun q => if q = p then some { f with content := subScan f.content } else fs q) := by
  simp only [fix_completion_requests]
  rw [hf]
  simp [hr, hw]

theorem fix_err_missing (fs : FS) (p : String) (h : fs p = none) :
    fix_completion_requests fs p = Except.error p := by
  simp only [fix_completion_requests]
  rw [h]

theorem fix_err_unreadable (fs : FS) (p : String) (f : FsFile) (hf : fs p = some f)
    (hr : f.readable = false) :
    fix_completion_requests fs p = Except.error p := by
  simp only [fix_completion_requests]
  rw [hf]
  simp [hr]

theorem fix_err_unwritable (fs : FS) (p : String) (f : FsFile) (hf : fs p = some f)
    (hr : f.readable = true) (hw : f.writable = false) :
    fix_completion_requests fs p = Except.error p := by
  simp only [fix_completion_requests]
  rw [hf]
  simp [hr, hw]

theorem runMain_cons (fs : FS) (p : String) (ps : List String) :
    runMain fs (p :: ps) =
      match fix_completion_requests fs p with
      | Except.error e => (fs, some e)
      | Except.ok fs2 => runMain fs2 ps := rfl


/-! ## The claims -/

/-- Claim C1: for every match, the substitution callback evaluates three
mutually exclusive cases in fixed priority order.  If the body contains
neither field label, both fields are appended after the (right-stripped)
body content with their literal defaults, `cursor_position: None` first and
then `text_before_cursor: String::new()`, each as a new trailing
field-assignment separated by a comma and newline; if only
`cursor_position` is missing only it is appended; if only
`text_before_cursor` is missing only it is appended; and the rewritten body
of a both-missing match contains exactly one trailing occurrence of each
field label followed by its default. -/
theorem claim_C1 : ∀ P B : List Char,
    (containsSub cursorLabel B = false → containsSub textLabel B = false →
      add_missing_fields P B = wrap P (rstrip B ++ bothTail) ∧
      countOcc cursorLabel (rstrip B ++ bothTail) = 1 ∧
      countOcc textLabel (rstrip B ++ bothTail) = 1 ∧
      (∃ u, rstrip B ++ bothTail =
        u ++ "cursor_position: None,\n            text_before_cursor: String::new(),".data)) ∧
    (containsSub cursorLabel B = false → containsSub textLabel B = true →
      add_missing_fields P B = wrap P (rstrip B ++ cursorTail)) ∧
    (containsSub cursorLabel B = true → containsSub textLabel B = false →
      add_missing_fields P B = wrap P (rstrip B ++ textTail)) := by
  intro P B
  refine ⟨?_, fun hc ht => AMF_cursor P B hc ht, fun hc ht => AMF_text P B hc ht⟩
  intro hc ht
  refine ⟨AMF_both P B hc ht, ?_, ?_, ?_⟩
  · rw [countOcc_app cursorLabel bothTail (by decide) (rstrip B)
      (containsSub_rstrip_false cursorLabel B hc)]
    decide
  · rw [countOcc_app textLabel bothTail (by decide) (rstrip B)
      (containsSub_rstrip_false textLabel B ht)]
    decide
  · have hbt : bothTail = ",\n            ".data ++
        "cursor_position: None,\n            text_before_cursor: String::new(),".data := by
      decide
    exact ⟨rstrip B ++ ",\n            ".data, by rw [List.append_assoc, ← hbt]⟩

/-- Claim C1 witness: the both-missing case at the concrete body `x: 1`. -/
theorem claim_C1_witness :
    add_missing_fields pfx3 "x: 1".data = wrap pfx3 (rstrip "x: 1".data ++ bothTail) ∧
    countOcc cursorLabel (rstrip "x: 1".data ++ bothTail) = 1 ∧
    countOcc textLabel (rstrip "x: 1".data ++ bothTail) = 1 ∧
    (∃ u, rstrip "x: 1".data ++ bothTail =
      u ++ "cursor_position: None,\n            text_before_cursor: String::new(),".data) :=
  (claim_C1 pfx3 "x: 1".data).1 (by decide) (by decide)

set_option maxRecDepth 40000 in
/-- Claim C2 counterexample: on Scenario B's input the output is not the
input with (only) `text_before_cursor: String::new(),` inserted at some
position — the callback also reformats the match (newline after the brace,
trailing whitespace stripped, `\x7d;` re-indented), so no single insertion
point exists. -/
theorem claim_C2_counterexample :
    ¬ ∃ a b : List Char, a ++ b = c2input ∧
      a ++ "text_before_cursor: String::new(),".data ++ b = subScan c2input := by
  rintro ⟨a, b, h1, h2⟩
  have l1 : c2input.length = 93 := by decide
  have l2 : (subScan c2input).length = 154 := by decide
  have l3 : ("text_before_cursor: String::new(),".data).length = 34 := by decide
  have e1 := congrArg List.length h1
  rw [List.length_append, l1] at e1
  have e2 := congrArg List.length h2
  rw [List.length_append, List.length_append, l3, l2] at e2
  omega

/-- Claim C2 (amended): for a match whose body is missing exactly one of the
two target fields, only that field's assignment is appended (after the
body's trailing whitespace is stripped and a comma inserted), and the match
is reformatted into the callback's fixed shape; the body's right-stripped
content, including the pre-existing field ordering, is preserved inside the
rewritten literal. -/
theorem claim_C2_amended : ∀ P B : List Char,
    (containsSub cursorLabel B = true → containsSub textLabel B = false →
      add_missing_fields P B = wrap P (rstrip B ++ textTail)) ∧
    (containsSub cursorLabel B = false → containsSub textLabel B = true →
      add_missing_fields P B = wrap P (rstrip B ++ cursorTail)) := by
  intro P B
  exact ⟨fun hc ht => AMF_text P B hc ht, fun hc ht => AMF_cursor P B hc ht⟩

/-- Claim C2 witness: Scenario B's body gains only `text_before_cursor`. -/
theorem claim_C2_witness :
    add_missing_fields pfx1 c2body = wrap pfx1 (rstrip c2body ++ textTail) :=
  (claim_C2_amended pfx1 c2body).1 (by decide) (by decide)

/-- Claim C3: the text transformation is idempotent — applying the
regex-substitution pass twice yields the same result as applying it once —
and a match whose body already contains both target field labels is left
unchanged (the callback returns `match.group(0)`). -/
theorem claim_C3 :
    (∀ content : List Char, subScan (subScan content) = subScan content) ∧
    (∀ P B : List Char, containsSub cursorLabel B = true → containsSub textLabel B = true →
      add_missing_fields P B = group0 P B) :=
  ⟨fun content => subScan_idem content, fun P B hc ht => AMF_keep P B hc ht⟩

/-- Claim C3 witness: a body already holding both labels is kept verbatim. -/
theorem claim_C3_witness :
    add_missing_fields pfx3 "cursor_position: c, text_before_cursor: t".data =
      group0 pfx3 "cursor_position: c, text_before_cursor: t".data :=
  claim_C3.2 pfx3 "cursor_position: c, text_before_cursor: t".data (by decide) (by decide)

/-- Claim C4: for input text with zero matches of the pattern the pass
returns the text unchanged, and processing such a file succeeds, writing
the filesystem back identical to its original state (a file without the
pattern is not an error). -/
theorem claim_C4 : ∀ (s : List Char) (fs : FS) (p : String) (f : FsFile),
    noMatchAll s →
    subScan s = s ∧
    (fs p = some f → f.content = s → f.readable = true → f.writable = true →
      fix_completion_requests fs p = Except.ok fs) := by
  intro s fs p f hnm
  have hid : subScan s = s := noMatch_id s hnm
  refine ⟨hid, ?_⟩
  intro hf hc hr hw
  rw [fix_ok fs p f hf hr hw]
  congr 1
  funext q
  by_cases hq : q = p
  · subst hq
    rw [if_pos rfl, hc, hid, ← hc, hf]
  · rw [if_neg hq]

/-- Claim C4 witness: a file whose content has no match is returned intact. -/
theorem claim_C4_witness :
    subScan "fn main() \x7b println!(); \x7d".data = "fn main() \x7b println!(); \x7d".data ∧
    fix_completion_requests
      (fun q => if q = "main.rs" then some ⟨"fn main() \x7b println!(); \x7d".data, true, true⟩ else none)
      "main.rs" =
      Except.ok
        (fun q => if q = "main.rs" then some ⟨"fn main() \x7b println!(); \x7d".data, true, true⟩ else none) := by
  have hnm : noMatchAll "fn main() \x7b println!(); \x7d".data :=
    noMatchAll_of_lt _ (by decide)
  have h := claim_C4 "fn main() \x7b println!(); \x7d".data
    (fun q => if q = "main.rs" then some ⟨"fn main() \x7b println!(); \x7d".data, true, true⟩ else none)
    "main.rs" ⟨"fn main() \x7b println!(); \x7d".data, true, true⟩ hnm
  exact ⟨h.1, h.2 (by simp) rfl rfl rfl⟩

/-- Claim C5: every input text splits into pieces whose concatenation is the
input, such that the pass's output is the concatenation of the rewritten
pieces, each piece being either a single character copied verbatim (text
outside any match) or a recognized match span rewritten by the callback:
all text outside the recognized struct-literal matches is left
byte-for-byte unchanged. -/
theorem claim_C5 : ∀ s : List Char, ∃ ps : List (List Char × List Char),
    s = (ps.map Prod.fst).flatten ∧ subScan s = (ps.map Prod.snd).flatten ∧
    ∀ pr ∈ ps, pr.2 = pr.1 ∨ ∃ P B, P ∈ pfxList ∧ (∀ c ∈ B, c ≠ '\x7d') ∧
      pr.1 = group0 P B ∧ pr.2 = add_missing_fields P B :=
  fun s => pieces_fuel s.length s (le_refl _)

/-- Claim C6 counterexample: a span of exactly the form the claim describes
— prefix phrase, then the literal name `CompletionRequest`, an opening
brace, a brace-free body, and `\x7d;` — is not recognized by the code's
pattern (which also requires the qualifier `crate::ai::` before the name),
and a whole pass leaves it unchanged. -/
theorem claim_C6_counterexample :
    specPatternForm c6span ∧ matchAt c6span = none ∧ subScan c6span = c6span := by
  refine ⟨⟨pfx3, "text: t".data, [], ?_, ?_, ?_⟩, ?_, ?_⟩
  · simp [pfxList]
  · decide
  · decide
  · decide
  · decide

/-- Claim C6 (amended): a span is recognized as a match exactly when it has
the form: one of the three fixed prefix phrases, immediately followed by
the qualified literal name `crate::ai::CompletionRequest`, a space, an
opening brace, a body that is any text not containing a closing brace, and
then `\x7d;`. -/
theorem claim_C6_amended : ∀ s P B t : List Char,
    matchAt s = some (P, B, t) ↔
      (P ∈ pfxList ∧ (∀ c ∈ B, c ≠ '\x7d') ∧
        s = P ++ "crate::ai::CompletionRequest \x7b".data ++ B ++ '\x7d' :: ';' :: t) := by
  intro s P B t
  have hh : "crate::ai::CompletionRequest \x7b".data = headStr := rfl
  constructor
  · intro h
    obtain ⟨h1, h2, h3⟩ := matchAt_sound s P B t h
    refine ⟨h1, h2, ?_⟩
    rw [h3, hh]
    simp [group0, List.append_assoc]
  · rintro ⟨h1, h2, rfl⟩
    have harr : P ++ "crate::ai::CompletionRequest \x7b".data ++ B ++ '\x7d' :: ';' :: t =
        group0 P B ++ t := by
      rw [hh]
      simp [group0, List.append_assoc]
    rw [harr]
    exact matchAt_complete P B t h1 h2

/-- Claim C7: a path that is absent, unreadable, or unwritable makes
`fix_completion_requests` raise; the error propagates uncaught through the
batch loop, aborting the remaining paths, and the filesystem is left
exactly as it was (the read error precedes any write, and a failed open
for writing writes nothing). -/
theorem claim_C7 : ∀ (fs : FS) (p : String) (ps : List String),
    (fs p = none →
      fix_completion_requests fs p = Except.error p ∧ runMain fs (p :: ps) = (fs, some p)) ∧
    (∀ f : FsFile, fs p = some f → f.readable = false →
      fix_completion_requests fs p = Except.error p ∧ runMain fs (p :: ps) = (fs, some p)) ∧
    (∀ f : FsFile, fs p = some f → f.readable = true → f.writable = false →
      fix_completion_requests fs p = Except.error p ∧ runMain fs (p :: ps) = (fs, some p)) := by
  intro fs p ps
  refine ⟨?_, ?_, ?_⟩
  · intro h
    have he := fix_err_missing fs p h
    exact ⟨he, by rw [runMain_cons, he]⟩
  · intro f hf hr
    have he := fix_err_unreadable fs p f hf hr
    exact ⟨he, by rw [runMain_cons, he]⟩
  · intro f hf hr hw
    have he := fix_err_unwritable fs p f hf hr hw
    exact ⟨he, by rw [runMain_cons, he]⟩

/-- Claim C7 witness: a missing path aborts the batch with its error and
leaves the (empty) filesystem untouched. -/
theorem claim_C7_witness :
    fix_completion_requests (fun _ => none) "missing.rs" = Except.error "missing.rs" ∧
    runMain (fun _ => none) ["missing.rs", "other.rs"] =
      ((fun _ => none : FS), some "missing.rs") :=
  (claim_C7 (fun _ => none) "missing.rs" ["other.rs"]).1 rfl

/-- Claim C8: whenever at least one field is appended, a comma is
unconditionally inserted between the right-stripped original body and the
new fields; for a body whose right-stripped text already ends in a comma
the rewritten body therefore contains `,,`, and for an empty body the
rewritten body begins with a comma. -/
theorem claim_C8 : ∀ P B : List Char,
    (containsSub cursorLabel B = false ∨ containsSub textLabel B = false) →
    ∃ rest : List Char,
      add_missing_fields P B = wrap P (rstrip B ++ ',' :: rest) ∧
      (∀ xs : List Char, rstrip B = xs ++ [','] →
        ∃ u v : List Char, rstrip B ++ ',' :: rest = u ++ ',' :: ',' :: v) ∧
      (B = [] → add_missing_fields P B = wrap P (',' :: rest)) := by
  intro P B h
  have hgen : ∀ rest : List Char,
      add_missing_fields P B = wrap P (rstrip B ++ ',' :: rest) →
      (∀ xs : List Char, rstrip B = xs ++ [','] →
        ∃ u v : List Char, rstrip B ++ ',' :: rest = u ++ ',' :: ',' :: v) ∧
      (B = [] → add_missing_fields P B = wrap P (',' :: rest)) := by
    intro rest heq
    constructor
    · intro xs hxs
      refine ⟨xs, rest, ?_⟩
      rw [hxs]
      simp
    · intro hB
      subst hB
      rw [heq]
      rfl
  cases hc : containsSub cursorLabel B with
  | false =>
    cases ht : containsSub textLabel B with
    | false =>
      have hbt : bothTail =
          ',' :: "\n            cursor_position: None,\n            text_before_cursor: String::new(),".data := by
        decide
      have heq : add_missing_fields P B = wrap P (rstrip B ++ ',' ::
          "\n            cursor_position: None,\n            text_before_cursor: String::new(),".data) := by
        rw [AMF_both P B hc ht, hbt]
      exact ⟨_, heq, hgen _ heq⟩
    | true =>
      have hct : cursorTail = ',' :: "\n            cursor_position: None,".data := by decide
      have heq : add_missing_fields P B =
          wrap P (rstrip B ++ ',' :: "\n            cursor_position: None,".data) := by
        rw [AMF_cursor P B hc ht, hct]
      exact ⟨_, heq, hgen _ heq⟩
  | true =>
    cases ht : containsSub textLabel B with
    | false =>
      have htt : textTail = ',' :: "\n            text_before_cursor: String::new(),".data := by
        decide
      have heq : add_missing_fields P B =
          wrap P (rstrip B ++ ',' :: "\n            text_before_cursor: String::new(),".data) := by
        rw [AMF_text P B hc ht, htt]
      exact ⟨_, heq, hgen _ heq⟩
    | true =>
      rcases h with h2 | h2
      · rw [hc] at h2
        exact absurd h2 (by simp)
      · rw [ht] at h2
        exact absurd h2 (by simp)

/-- Claim C8 witness: a body whose right-stripped text ends in a comma. -/
theorem claim_C8_witness :
    ∃ rest : List Char,
      add_missing_fields pfx3 "a,".data = wrap pfx3 (rstrip "a,".data ++ ',' :: rest) ∧
      (∀ xs : List Char, rstrip "a,".data = xs ++ [','] →
        ∃ u v : List Char, rstrip "a,".data ++ ',' :: rest = u ++ ',' :: ',' :: v) ∧
      ("a,".data = [] → add_missing_fields pfx3 "a,".data = wrap pfx3 (',' :: rest)) :=
  claim_C8 pfx3 "a,".data (Or.inl (by decide))

/-- Claim C9: the presence check for each field is plain substring
containment of the text `cursor_position:` (resp. `text_before_cursor:`)
in the captured body, so a body containing that text anywhere — inside a
string literal, a comment, or as the suffix of a longer identifier — is
treated as having that field, and no default is inserted for it in either
remaining branch. -/
theorem claim_C9 : ∀ P B : List Char,
    (occursIn cursorLabel B →
      containsSub cursorLabel B = true ∧
      (containsSub textLabel B = true → add_missing_fields P B = group0 P B) ∧
      (containsSub textLabel B = false →
        add_missing_fields P B = wrap P (rstrip B ++ textTail))) ∧
    (occursIn textLabel B →
      containsSub textLabel B = true ∧
      (containsSub cursorLabel B = true → add_missing_fields P B = group0 P B) ∧
      (containsSub cursorLabel B = false →
        add_missing_fields P B = wrap P (rstrip B ++ cursorTail))) := by
  intro P B
  constructor
  · intro h
    have hc : containsSub cursorLabel B = true := (containsSub_iff _ _).mpr h
    exact ⟨hc, fun ht => AMF_keep P B hc ht, fun ht => AMF_text P B hc ht⟩
  · intro h
    have ht : containsSub textLabel B = true := (containsSub_iff _ _).mpr h
    exact ⟨ht, fun hc => AMF_keep P B hc ht, fun hc => AMF_cursor P B hc ht⟩

/-- Claim C9 witness: `my_cursor_position:` inside one body counts as
`cursor_position` being present, so only `text_before_cursor` is defaulted;
`my_text_before_cursor:` inside another counts as `text_before_cursor`
being present, so only `cursor_position` is defaulted. -/
theorem claim_C9_witness :
    (containsSub cursorLabel "my_cursor_position: 5".data = true ∧
      add_missing_fields pfx3 "my_cursor_position: 5".data =
        wrap pfx3 (rstrip "my_cursor_position: 5".data ++ textTail)) ∧
    (containsSub textLabel "my_text_before_cursor: s".data = true ∧
      add_missing_fields pfx3 "my_text_before_cursor: s".data =
        wrap pfx3 (rstrip "my_text_before_cursor: s".data ++ cursorTail)) := by
  have h1 := (claim_C9 pfx3 "my_cursor_position: 5".data).1
    ⟨"my_".data, " 5".data, by decide⟩
  have h2 := (claim_C9 pfx3 "my_text_before_cursor: s".data).2
    ⟨"my_".data, " s".data, by decide⟩
  exact ⟨⟨h1.1, h1.2.2 (by decide)⟩, ⟨h2.1, h2.2.2 (by decide)⟩⟩

/-- Claim C10: whenever any field is appended the entire match is rebuilt in
a fixed shape — a newline after the opening brace, each appended field
preceded by a newline and exactly twelve spaces, and the literal closed by
a newline, twelve spaces and `\x7d;` — while a match needing no fields keeps
its original text exactly. -/
theorem claim_C10 : ∀ P B : List Char,
    (containsSub cursorLabel B = false → containsSub textLabel B = false →
      add_missing_fields P B =
        P ++ headStr ++ '\n' :: (rstrip B ++
          ',' :: '\n' :: (indent12 ++ "cursor_position: None,".data ++
          '\n' :: (indent12 ++ "text_before_cursor: String::new(),".data))) ++
        '\n' :: (indent12 ++ ['\x7d', ';'])) ∧
    (containsSub cursorLabel B = false → containsSub textLabel B = true →
      add_missing_fields P B =
        P ++ headStr ++ '\n' :: (rstrip B ++
          ',' :: '\n' :: (indent12 ++ "cursor_position: None,".data)) ++
        '\n' :: (indent12 ++ ['\x7d', ';'])) ∧
    (containsSub cursorLabel B = true → containsSub textLabel B = false →
      add_missing_fields P B =
        P ++ headStr ++ '\n' :: (rstrip B ++
          ',' :: '\n' :: (indent12 ++ "text_before_cursor: String::new(),".data)) ++
        '\n' :: (indent12 ++ ['\x7d', ';'])) ∧
    (containsSub cursorLabel B = true → containsSub textLabel B = true →
      add_missing_fields P B = P ++ headStr ++ B ++ ['\x7d', ';']) := by
  intro P B
  refine ⟨?_, ?_, ?_, ?_⟩
  · intro hc ht
    rw [AMF_both P B hc ht, wrap]
    have hbt : bothTail = ',' :: '\n' :: (indent12 ++ "cursor_position: None,".data ++
        '\n' :: (indent12 ++ "text_before_cursor: String::new(),".data)) := by
      decide
    rw [hbt]
  · intro hc ht
    rw [AMF_cursor P B hc ht, wrap]
    have hct : cursorTail = ',' :: '\n' :: (indent12 ++ "cursor_position: None,".data) := by
      decide
    rw [hct]
  · intro hc ht
    rw [AMF_text P B hc ht, wrap]
    have htt : textTail = ',' :: '\n' :: (indent12 ++ "text_before_cursor: String::new(),".data) := by
      decide
    rw [htt]
  · intro hc ht
    rw [AMF_keep P B hc ht, group0]

/-- Claim C10 witness: the fixed reformatting for the empty body. -/
theorem claim_C10_witness :
    add_missing_fields pfx3 [] =
      pfx3 ++ headStr ++ '\n' :: (rstrip [] ++
        ',' :: '\n' :: (indent12 ++ "cursor_position: None,".data ++
        '\n' :: (indent12 ++ "text_before_cursor: String::new(),".data))) ++
      '\n' :: (indent12 ++ ['\x7d', ';']) :=
  (claim_C10 pfx3 []).1 (by decide) (by decide)

example : pyIsSpace ' ' = true := by decide
example : headStr.length = 30 := by decide
example : rstrip "ab  ".data = "ab".data := by decide
example : matchAt "let request = crate::ai::CompletionRequest \x7b\x7d; tail".data =
    some (pfx3, [], " tail".data) := by decide
example :
    subScan "let request = crate::ai::CompletionRequest \x7bcursor_position: c, text_before_cursor: t\x7d;".data =
    "let request = crate::ai::CompletionRequest \x7bcursor_position: c, text_before_cursor: t\x7d;".data := by
  decide

end SuperIde
